import Mathlib

/-!
Verification development for the definition classification, parsing, and
synchronized storage subsystem of `agent-def-fetcher`.

Pure Rust functions are shallowly embedded as Lean functions on `String` /
`List Char`.  External serde parsers (YAML, JSON deserialization) are
modelled as oracle parameters, since they are library collaborators, not
code of this repository.  The SQLite-backed store is embedded as explicit
state passing over a list of rows.
-/

namespace AgentDefs

/-! ## String helpers (char-level models of Rust `str` operations) -/

/-- `isPre pat l` is true iff `pat` is a leading segment of `l`.
Models Rust `str::starts_with` at the character level. -/
def isPre : List Char → List Char → Bool
  | [], _ => true
  | _ :: _, [] => false
  | a :: as, b :: bs => a = b && isPre as bs

/-- Models Rust `str::starts_with` for string arguments. -/
def strStartsWith (s pre : String) : Bool := isPre pre.data s.data

/-- Models Rust `str::ends_with` for string arguments. -/
def strEndsWith (s suf : String) : Bool := isPre suf.data.reverse s.data.reverse

/-- Split a character list on a separator character.  Models Rust
`str::split(sep)`: the empty string yields `[""]`, and adjacent
separators yield empty segments. -/
def splitChar : List Char → Char → List (List Char)
  | [], _ => [[]]
  | h :: t, sep =>
    if h = sep then [] :: splitChar t sep
    else
      match splitChar t sep with
      | [] => [[h]]
      | g :: gs => (h :: g) :: gs

/-- Split a path on `/`, as Rust `path.split('/')` collected to a vector. -/
def splitPath (p : String) : List String := (splitChar p.data '/').map String.mk

/-- Models Rust `str::strip_suffix(suf).unwrap_or(s)`: remove one trailing
occurrence of `suf` when present, else return `s` unchanged. -/
def stripSuffixOr (s suf : String) : String :=
  if strEndsWith s suf then String.mk (s.data.take (s.data.length - suf.data.length)) else s

/-- Models Rust `char` ASCII lowercasing as used by `str::to_lowercase`
on the ASCII inputs this program deals in. -/
def charLower (c : Char) : Char :=
  if 65 ≤ c.toNat ∧ c.toNat ≤ 90 then Char.ofNat (c.toNat + 32) else c

/-- Models Rust `str::to_lowercase` (ASCII range). -/
def lowerStr (s : String) : String := String.mk (s.data.map charLower)

/-- First index at which `pat` occurs inside `hay`, counted in characters.
Models Rust `str::find(pat)` on ASCII content. -/
def findSub : List Char → List Char → Option Nat
  | [], pat => if pat.isEmpty then some 0 else none
  | h :: t, pat =>
    if isPre pat (h :: t) then some 0 else (findSub t pat).map (· + 1)

/-- Whether `pat` occurs anywhere inside `hay`. -/
def containsSub (hay pat : List Char) : Bool :=
  match hay with
  | [] => pat.isEmpty
  | _ :: t => isPre pat hay || containsSub t pat

/-- Models Rust `str::trim_start` (whitespace trimming). -/
def trimLeftStr (s : String) : String :=
  String.mk (s.data.dropWhile Char.isWhitespace)

/-- Models Rust `u64::from_str`: optional leading `+`, then one or more
ASCII digits. -/
def parseNat? (s : String) : Option Nat :=
  let digits :=
    match s.data with
    | '+' :: rest => rest
    | l => l
  if digits.isEmpty ∨ ¬ digits.all Char.isDigit then none
  else some (digits.foldl (fun acc c => acc * 10 + (c.toNat - 48)) 0)

/-! ## Data model (`agent-defs/src/definition.rs`) -/

/-- `DefinitionId` is an opaque string identifier. -/
abbrev DefinitionId := String

/-- Classification of what a definition represents. -/
inductive DefinitionKind where
  | agent
  | command
  | hook
  | mcp
  | setting
  | skill
  | other (s : String)
deriving DecidableEq, Repr

/-- `DefinitionKind::parse`: lowercase the segment, then match singular or
plural forms of the known kinds; anything else becomes `Other` carrying
the lowercased segment. -/
def DefinitionKind.parse (s : String) : DefinitionKind :=
  match lowerStr s with
  | "agent" => .agent
  | "agents" => .agent
  | "command" => .command
  | "commands" => .command
  | "hook" => .hook
  | "hooks" => .hook
  | "mcp" => .mcp
  | "mcps" => .mcp
  | "setting" => .setting
  | "settings" => .setting
  | "skill" => .skill
  | "skills" => .skill
  | lowered => .other lowered

/-- The `Display` impl for `DefinitionKind`. -/
def DefinitionKind.toStr : DefinitionKind → String
  | .agent => "agent"
  | .command => "command"
  | .hook => "hook"
  | .mcp => "mcp"
  | .setting => "setting"
  | .skill => "skill"
  | .other s => s

/-! ## Path classifier (`agent-defs/src/path.rs`) -/

/-- `is_definition_file`: no path segment starts with `.`, and the path
ends in `.md` or `.json`. -/
def is_definition_file (relative_path : String) : Bool :=
  if (splitPath relative_path).any (fun seg => strStartsWith seg ".") then false
  else strEndsWith relative_path ".md" || strEndsWith relative_path ".json"

/-- `is_skill_entry_point`: starts with `skills/` and ends with `/SKILL.md`. -/
def is_skill_entry_point (relative_path : String) : Bool :=
  strStartsWith relative_path "skills/" && strEndsWith relative_path "/SKILL.md"

/-- `is_skill_reference`: under `skills/` but not a `SKILL.md` entry point. -/
def is_skill_reference (relative_path : String) : Bool :=
  strStartsWith relative_path "skills/" && ! strEndsWith relative_path "/SKILL.md"

/-- `is_skill_directory_id`: starts with `skills/` and has neither a `.md`
nor a `.json` suffix. -/
def is_skill_directory_id (relative_id : String) : Bool :=
  strStartsWith relative_id "skills/"
    && ! strEndsWith relative_id ".md"
    && ! strEndsWith relative_id ".json"

/-- `parse_skill_path`: a 4-segment path yields
`(third segment, Skill, Some second segment)`; otherwise strip a trailing
`/SKILL.md` and use the last remaining segment as the name. -/
def parse_skill_path (relative_path : String) : String × DefinitionKind × Option String :=
  match splitPath relative_path with
  | [_skills, category, name, _skillMd] => (name, .skill, some category)
  | _ =>
    let dir := stripSuffixOr relative_path "/SKILL.md"
    let name := (splitPath dir).getLastD "unknown"
    (name, .skill, none)

/-- The stem of a file name: one trailing `.md`, or else one trailing
`.json`, removed (`strip_suffix(".md").or_else(strip_suffix(".json"))`). -/
def stemOf (fileName : String) : String :=
  if strEndsWith fileName ".md" then String.mk (fileName.data.take (fileName.data.length - 3))
  else if strEndsWith fileName ".json" then String.mk (fileName.data.take (fileName.data.length - 5))
  else fileName

/-- `parse_relative_path`: split on `/` and classify by segment count, with
the stem of the last segment as the name. -/
def parse_relative_path (relative_path : String) : String × DefinitionKind × Option String :=
  let parts := splitPath relative_path
  let fileName := parts.getLastD "unknown"
  let name := stemOf fileName
  match parts with
  | [kindStr, category, _file] => (name, DefinitionKind.parse kindStr, some category)
  | [kindStr, _file] => (name, DefinitionKind.parse kindStr, none)
  | [_file] => (name, .other "unknown", none)
  | kindStr :: category :: _ => (name, DefinitionKind.parse kindStr, some category)
  | _ => (name, .other "unknown", none)

/-- Spec-side fallback of `parse_skill_path`: strip a trailing `/SKILL.md`
suffix if present and take the final remaining path segment as the name. -/
def skillFallbackName (p : String) : String :=
  (splitPath (stripSuffixOr p "/SKILL.md")).getLastD "unknown"

/-! ## Document parser (`agent-defs/src/frontmatter.rs`, `builder.rs`)

The YAML and JSON deserializers (`serde_yaml_ng`, `serde_json`) are external
library collaborators; they are modelled as oracle parameters
`yaml : String → Except String Frontmatter` and
`json : String → Except String JsonDefinition`. -/

/-- A YAML value as relevant to `extras_as_strings`: scalar strings, bools
and numbers convert to metadata entries, composite values are dropped. -/
inductive YamlValue where
  | str (s : String)
  | bool (b : Bool)
  | num (repr : String)
  | composite
deriving DecidableEq, Repr

/-- Raw frontmatter fields parsed from YAML between `---` delimiters. -/
structure Frontmatter where
  name : Option String := none
  description : Option String := none
  tools : Option String := none
  model : Option String := none
  color : Option String := none
  extras : List (String × YamlValue) := []
deriving DecidableEq, Repr

instance : Inhabited Frontmatter := ⟨{}⟩

/-- `Frontmatter::tool_list`: split the comma-separated tools string,
trim each entry, and drop empty entries. -/
def Frontmatter.toolList (fm : Frontmatter) : List String :=
  match fm.tools with
  | none => []
  | some t => (((splitChar t.data ',').map String.mk).map String.trim).filter (· ≠ "")

/-- `Frontmatter::extras_as_strings`: keep only scalar extras. -/
def Frontmatter.extrasAsStrings (fm : Frontmatter) : List (String × String) :=
  fm.extras.filterMap fun kv =>
    match kv.2 with
    | .str s => some (kv.1, s)
    | .bool b => some (kv.1, if b then "true" else "false")
    | .num r => some (kv.1, r)
    | .composite => none

/-- Result of parsing a markdown document with optional frontmatter. -/
structure ParsedDocument where
  frontmatter : Option Frontmatter
  body : String
deriving DecidableEq, Repr

/-- The `FrontmatterError` type (`InvalidYaml`). -/
inductive FrontmatterError where
  | invalidYaml (msg : String)
deriving DecidableEq, Repr

/-- Display string of a `FrontmatterError` (thiserror format). -/
def FrontmatterError.toStr : FrontmatterError → String
  | .invalidYaml msg => "invalid YAML in frontmatter: " ++ msg

/-- `frontmatter::parse`: trim leading whitespace; if the trimmed content
does not start with `---`, or no `\n---` follows, the whole original
content is the body with no frontmatter; otherwise the text between the
markers is handed to the YAML deserializer, whose failure is a hard
error. -/
def parseFrontmatter (yaml : String → Except String Frontmatter) (content : String) :
    Except FrontmatterError ParsedDocument :=
  let trimmed := trimLeftStr content
  if ¬ strStartsWith trimmed "---" then .ok ⟨none, content⟩
  else
    let afterOpening := trimmed.data.drop 3
    match findSub afterOpening "\n---".data with
    | none => .ok ⟨none, content⟩
    | some endPos =>
      let yamlStr := String.mk (afterOpening.take endPos)
      let rest := afterOpening.drop (endPos + 4)
      let body := String.mk (match rest with | '\n' :: r => r | _ => rest)
      match yaml yamlStr with
      | .error e => .error (.invalidYaml e)
      | .ok fm => .ok ⟨some fm, body⟩

/-- `SourceError` (`agent-defs/src/source.rs`). -/
inductive SourceError where
  | notFound (id : DefinitionId)
  | network (msg : String)
  | parse (msg : String)
  | other (msg : String)
deriving DecidableEq, Repr

/-- Display string of a `SourceError` (thiserror format). -/
def SourceError.toStr : SourceError → String
  | .notFound id => "definition not found: " ++ id
  | .network msg => "network error: " ++ msg
  | .parse msg => "parse error: " ++ msg
  | .other msg => msg

/-- The full `Definition` record (`agent-defs/src/definition.rs`).
`metadata` is modelled as an association list in place of `HashMap`. -/
structure Definition where
  id : DefinitionId
  name : String
  description : Option String
  kind : DefinitionKind
  category : Option String
  sourceLabel : String
  body : String
  tools : List String
  model : Option String
  metadata : List (String × String)
  raw : String
deriving DecidableEq, Repr

/-- `DefinitionSummary`: the listing projection of a `Definition`. -/
structure DefinitionSummary where
  id : DefinitionId
  name : String
  description : Option String
  kind : DefinitionKind
  category : Option String
  sourceLabel : String
deriving DecidableEq, Repr

/-- `Definition::summary`. -/
def Definition.summary (d : Definition) : DefinitionSummary :=
  ⟨d.id, d.name, d.description, d.kind, d.category, d.sourceLabel⟩

/-- Schema for JSON-based definition files (`builder.rs`). -/
structure JsonDefinition where
  name : Option String := none
  description : Option String := none
  tools : List String := []
  model : Option String := none
  kind : Option String := none
deriving DecidableEq, Repr

/-- `build_markdown_definition`: parse frontmatter (failure is a parse
error), then fill fields from the frontmatter when present, defaulting
the name to the path-derived name. -/
def build_markdown_definition (yaml : String → Except String Frontmatter)
    (id : DefinitionId) (rawContent : String) (pathName : String)
    (kind : DefinitionKind) (category : Option String) (sourceLabel : String) :
    Except SourceError Definition :=
  match parseFrontmatter yaml rawContent with
  | .error e => .error (.parse e.toStr)
  | .ok parsed =>
    let (name, description, tools, model, metadata) :=
      match parsed.frontmatter with
      | some fm =>
        (fm.name.getD pathName, fm.description, fm.toolList, fm.model, fm.extrasAsStrings)
      | none => (pathName, none, [], none, [])
    .ok ⟨id, name, description, kind, category, sourceLabel, parsed.body,
         tools, model, metadata, rawContent⟩

/-- `build_json_definition`: deserialize the whole file; the `kind` field
overrides the path-derived kind; `body` and `raw` are both the verbatim
input text. -/
def build_json_definition (json : String → Except String JsonDefinition)
    (id : DefinitionId) (rawContent : String) (pathName : String)
    (kind : DefinitionKind) (category : Option String) (sourceLabel : String) :
    Except SourceError Definition :=
  match json rawContent with
  | .error e => .error (.parse ("JSON parse failed: " ++ e))
  | .ok jd =>
    .ok ⟨id, jd.name.getD pathName, jd.description,
         (jd.kind.map DefinitionKind.parse).getD kind, category, sourceLabel,
         rawContent, jd.tools, jd.model, [], rawContent⟩

/-- `build_definition`: route by file extension. -/
def build_definition (yaml : String → Except String Frontmatter)
    (json : String → Except String JsonDefinition)
    (id : DefinitionId) (rawContent : String) (relativePath : String)
    (pathName : String) (kind : DefinitionKind) (category : Option String)
    (sourceLabel : String) : Except SourceError Definition :=
  if strEndsWith relativePath ".json" then
    build_json_definition json id rawContent pathName kind category sourceLabel
  else
    build_markdown_definition yaml id rawContent pathName kind category sourceLabel

/-- The frontmatter recognition condition the code actually implements:
after trimming leading whitespace the content starts with `---`, and the
characters after that prefix contain the substring `"\n---"`. -/
def fmRecognized (content : String) : Bool :=
  strStartsWith (trimLeftStr content) "---"
    && containsSub ((trimLeftStr content).data.drop 3) "\n---".data

/-- The YAML text `frontmatter::parse` extracts when `fmRecognized` holds:
everything after the opening `---` of the trimmed content, up to the
first `"\n---"`. -/
def extractedYaml (content : String) : String :=
  let afterOpening := (trimLeftStr content).data.drop 3
  String.mk (afterOpening.take ((findSub afterOpening "\n---".data).getD 0))

/-- The body `frontmatter::parse` produces when `fmRecognized` holds:
everything after the closing `\n---`, with one leading newline removed. -/
def extractedBody (content : String) : String :=
  let afterOpening := (trimLeftStr content).data.drop 3
  let rest := afterOpening.drop (((findSub afterOpening "\n---".data).getD 0) + 4)
  String.mk (match rest with | '\n' :: r => r | _ => rest)

/-! ## Sync contracts (`agent-defs/src/sync.rs`, `feedback.rs`) -/

/-- A raw file extracted from a sync source. -/
structure RawDefinitionFile where
  relative_path : String
  content : String
deriving DecidableEq, Repr

/-- Errors that can occur during sync operations. -/
inductive SyncError where
  | network (msg : String)
  | extraction (msg : String)
  | io (msg : String)
  | storage (msg : String)
  | other (msg : String)
deriving DecidableEq, Repr

/-- Structured feedback from operations that produce multiple messages. -/
inductive Feedback where
  | info (msg : String)
  | warning (msg : String)
  | error (msg : String)
deriving DecidableEq, Repr

/-! ## Local store (`agent-defs-store/src/store.rs`)

The SQLite tables are embedded as explicit state: the `definitions` table
as a list of rows (insert-or-replace appends after deleting the
conflicting key) and the `sources` table as label/timestamp pairs.
Wall-clock time is passed explicitly. -/

/-- How fresh the local cache is for a given source. -/
inductive SyncStatus where
  | neverSynced
  | stale (daysOld : Nat)
  | fresh (daysOld : Nat)
deriving DecidableEq, Repr

/-- Summary of a sync operation. -/
structure SyncReport where
  synced : Nat
  skipped : Nat
  feedback : List Feedback
deriving DecidableEq, Repr

/-- The persisted state of the database behind a `DefinitionStore`. -/
structure StoreState where
  defs : List Definition
  sources : List (String × Option String)
deriving DecidableEq, Repr

/-- The `SELECT last_synced_at FROM sources WHERE label = ?` lookup:
`none` when no row exists, `some none` for a null timestamp. -/
def getSourceRow (st : StoreState) (label : String) : Option (Option String) :=
  (st.sources.find? (fun r => r.1 = label)).map (·.2)

/-- `days_since`: parse the stored epoch-seconds string and divide the
saturating elapsed seconds by 86400. -/
def days_since (timestamp : String) (now : Nat) : Option Nat :=
  (parseNat? timestamp).map (fun t => (now - t) / 86400)

/-- `DefinitionStore::sync_status`: `NeverSynced` without a (non-null)
timestamp row; otherwise stale at `days_old >= 7`, fresh below. -/
def sync_status (st : StoreState) (label : String) (now : Nat) : SyncStatus :=
  match getSourceRow st label with
  | none => .neverSynced
  | some none => .neverSynced
  | some (some timestamp) =>
    let daysOld := (days_since timestamp now).getD 0
    if 7 ≤ daysOld then .stale daysOld else .fresh daysOld

/-- `DefinitionStore::upsert_definition`: insert-or-replace keyed by
`(source_label, id)`. -/
def upsert_definition (st : StoreState) (d : Definition) : StoreState :=
  { st with
    defs := st.defs.filter (fun r => ¬ (r.sourceLabel = d.sourceLabel ∧ r.id = d.id)) ++ [d] }

/-- `DefinitionStore::clear_definitions`: delete all rows for this label. -/
def clear_definitions (st : StoreState) (label : String) : StoreState :=
  { st with defs := st.defs.filter (fun r => ¬ r.sourceLabel = label) }

/-- `DefinitionStore::record_sync`: insert-or-replace the label's
timestamp row with the current epoch seconds. -/
def record_sync (st : StoreState) (label : String) (now : String) : StoreState :=
  { st with sources := st.sources.filter (fun r => ¬ r.1 = label) ++ [(label, some now)] }

/-- The per-file step of `DefinitionStore::sync`'s loop. -/
def syncFileStep (yaml : String → Except String Frontmatter)
    (json : String → Except String JsonDefinition) (label : String)
    (acc : StoreState × SyncReport) (file : RawDefinitionFile) :
    StoreState × SyncReport :=
  let (st, rep) := acc
  if ¬ is_definition_file file.relative_path then
    (st, { rep with skipped := rep.skipped + 1 })
  else if is_skill_reference file.relative_path then
    (st, { rep with skipped := rep.skipped + 1 })
  else
    let (idStr, pathName, kind, category) :=
      if is_skill_entry_point file.relative_path then
        let (name, kind, category) := parse_skill_path file.relative_path
        (stripSuffixOr file.relative_path "/SKILL.md", name, kind, category)
      else
        let (name, kind, category) := parse_relative_path file.relative_path
        (file.relative_path, name, kind, category)
    match build_definition yaml json idStr file.content file.relative_path
        pathName kind category label with
    | .ok d => (upsert_definition st d, { rep with synced := rep.synced + 1 })
    | .error e =>
      (st, { rep with
              skipped := rep.skipped + 1,
              feedback := rep.feedback
                ++ [.warning ("skipping " ++ file.relative_path ++ ": " ++ e.toStr)] })

/-- `DefinitionStore::sync`: abort on a provider error leaving the state
untouched; otherwise clear this label's rows, process every file, record
the sync timestamp, and return the report. -/
def sync (yaml : String → Except String Frontmatter)
    (json : String → Except String JsonDefinition) (label : String)
    (st : StoreState) (fetched : Except SyncError (List RawDefinitionFile))
    (now : String) : StoreState × Except SyncError SyncReport :=
  match fetched with
  | .error e => (st, .error e)
  | .ok files =>
    let st1 := clear_definitions st label
    let res := files.foldl (syncFileStep yaml json label) (st1, ⟨0, 0, []⟩)
    (record_sync res.1 label now, .ok res.2)

/-- The `list()` query: this label's rows ordered by kind then name
(stored kind strings, binary collation). -/
def rowLe (a b : Definition) : Bool :=
  decide (a.kind.toStr < b.kind.toStr
    ∨ (a.kind.toStr = b.kind.toStr ∧ a.name ≤ b.name))

/-- Stable insertion into a sorted list. -/
def insertBy (le : α → α → Bool) (a : α) : List α → List α
  | [] => [a]
  | b :: l => if le b a then b :: insertBy le a l else a :: b :: l

/-- Stable insertion sort, modelling the deterministic `ORDER BY`. -/
def sortBy (le : α → α → Bool) : List α → List α
  | [] => []
  | a :: l => insertBy le a (sortBy le l)

/-- `DefinitionStore::list`. -/
def list_q (st : StoreState) (label : String) : List DefinitionSummary :=
  (sortBy rowLe (st.defs.filter (fun d => d.sourceLabel = label))).map Definition.summary

/-- All suffixes of a character list, longest first. -/
def suffixesOf : List Char → List (List Char)
  | [] => [[]]
  | c :: t => (c :: t) :: suffixesOf t

/-- SQLite `LIKE` matching (no ESCAPE clause): `%` matches any run of
characters (any suffix continues the match), `_` matches exactly one
character, and other characters compare ASCII case-insensitively. -/
def likeMatch : List Char → List Char → Bool
  | [], t => t.isEmpty
  | '%' :: ps, t => (suffixesOf t).any (fun s => likeMatch ps s)
  | '_' :: ps, t =>
    match t with
    | [] => false
    | _ :: ts => likeMatch ps ts
  | p :: ps, t =>
    match t with
    | [] => false
    | c :: ts => charLower p = charLower c && likeMatch ps ts

/-- `column LIKE pattern` on a string column. -/
def sqlLike (text pattern : String) : Bool := likeMatch pattern.data text.data

/-- `DefinitionStore::search`: rows whose name, description, or body
matches `LIKE '%query%'`. -/
def search_q (st : StoreState) (label : String) (query : String) :
    List DefinitionSummary :=
  (sortBy rowLe (st.defs.filter (fun d =>
    decide (d.sourceLabel = label)
      && (sqlLike d.name ("%" ++ query ++ "%")
          || (match d.description with
              | some descr => sqlLike descr ("%" ++ query ++ "%")
              | none => false)
          || sqlLike d.body ("%" ++ query ++ "%"))))).map Definition.summary

/-- `DefinitionStore::fetch`: the row keyed `(label, id)`, or `NotFound`. -/
def fetch_q (st : StoreState) (label : String) (id : DefinitionId) :
    Except SourceError Definition :=
  match st.defs.find? (fun d => d.sourceLabel = label ∧ d.id = id) with
  | some d => .ok d
  | none => .error (.notFound id)

/-! ## Composite source (`agent-defs/src/composite.rs`)

A member source's `fetch` capability is embedded as a function from id to
result. -/

/-- `CompositeSource::fetch`: try members in order, swallowing `NotFound`,
surfacing any other error, and reporting `NotFound(id)` if every member
misses. -/
def compositeFetch (sources : List (DefinitionId → Except SourceError Definition))
    (id : DefinitionId) : Except SourceError Definition :=
  match sources with
  | [] => .error (.notFound id)
  | s :: rest =>
    match s id with
    | .ok d => .ok d
    | .error (.notFound _) => compositeFetch rest id
    | .error e => .error e

/-! ## Spec-side per-file outcome (the claim's reading of the sync loop) -/

/-- What the sync pass does with one raw file, per the spec: silently
skip, sync a built definition, or skip with one warning. -/
inductive FileOutcome where
  | skippedSilently
  | syncedDef (d : Definition)
  | warned (msg : String)
deriving DecidableEq, Repr

/-- Spec-side classification of one raw file: skip silently when not a
definition file or a skill reference; otherwise derive the id and the
name/kind/category (entry point → directory id + skill parse, else raw
path id + flat parse), then build, yielding either a synced definition or
a warning naming the path and the parse error. -/
def classifyRawFile (yaml : String → Except String Frontmatter)
    (json : String → Except String JsonDefinition) (label : String)
    (file : RawDefinitionFile) : FileOutcome :=
  if ¬ is_definition_file file.relative_path ∨ is_skill_reference file.relative_path then
    .skippedSilently
  else
    let entry := is_skill_entry_point file.relative_path
    let idStr := if entry then stripSuffixOr file.relative_path "/SKILL.md"
                 else file.relative_path
    let parsed := if entry then parse_skill_path file.relative_path
                  else parse_relative_path file.relative_path
    match build_definition yaml json idStr file.content file.relative_path
        parsed.1 parsed.2.1 parsed.2.2 label with
    | .ok d => .syncedDef d
    | .error e => .warned ("skipping " ++ file.relative_path ++ ": " ++ e.toStr)

/-- Apply a list of per-file outcomes to the store: synced definitions are
upserted in order, skipped files leave the store unchanged. -/
def applyOutcomes (st : StoreState) (outs : List FileOutcome) : StoreState :=
  outs.foldl
    (fun s o => match o with | .syncedDef d => upsert_definition s d | _ => s) st

/-- Number of synced files among the outcomes. -/
def countSynced (outs : List FileOutcome) : Nat :=
  outs.countP (fun o => match o with | .syncedDef _ => true | _ => false)

/-- Number of skipped files (silent skips and parse failures). -/
def countSkipped (outs : List FileOutcome) : Nat :=
  outs.countP (fun o =>
    match o with | .skippedSilently => true | .warned _ => true | _ => false)

/-- The warnings produced by the outcomes, in file order. -/
def warningsOf (outs : List FileOutcome) : List Feedback :=
  outs.filterMap (fun o =>
    match o with | .warned m => some (.warning m) | _ => none)

/-! ## Lemmas about lowercasing -/

theorem charLower_idem (c : Char) : charLower (charLower c) = charLower c := by
  by_cases h : 65 ≤ c.toNat ∧ c.toNat ≤ 90
  · have hc : charLower c = Char.ofNat (c.toNat + 32) := by rw [charLower, if_pos h]
    obtain ⟨h1, h2⟩ := h
    rw [hc]
    generalize hg : c.toNat = n at h1 h2 ⊢
    interval_cases n <;> decide
  · have hc : charLower c = c := by rw [charLower, if_neg h]
    rw [hc, charLower, if_neg h]

theorem lowerStr_idem (s : String) : lowerStr (lowerStr s) = lowerStr s := by
  unfold lowerStr
  simp only [List.map_map]
  congr 1
  exact List.map_congr_left (fun c _ => charLower_idem c)

theorem findSub_none_iff (hay pat : List Char) :
    findSub hay pat = none ↔ containsSub hay pat = false := by
  induction hay with
  | nil =>
    by_cases hp : pat.isEmpty <;> simp [findSub, containsSub, hp]
  | cons h t ih =>
    by_cases hpre : isPre pat (h :: t) <;>
      simp [findSub, containsSub, hpre, ih, Option.map_eq_none']

/-! ## Claim theorems: path classification -/

/-- C10: `DefinitionKind::parse` lowercases its input before matching, so
parsing any string gives the same result as parsing its lowercased form;
an unrecognized segment yields `Other` carrying the lowercased segment
(`"Widgets"` becomes `Other "widgets"`), and the original casing of an
unrecognized segment is never preserved. -/
theorem kind_parse_lowercases :
    (∀ s : String, DefinitionKind.parse s = DefinitionKind.parse (lowerStr s)) ∧
    DefinitionKind.parse "Widgets" = .other "widgets" ∧
    (∀ s t : String, DefinitionKind.parse s = .other t → t = lowerStr s) := by
  refine ⟨fun s => ?_, by decide, fun s t h => ?_⟩
  · unfold DefinitionKind.parse
    rw [lowerStr_idem]
  · revert h
    unfold DefinitionKind.parse
    split <;> intro h <;> simp_all

/-- Witness for `kind_parse_lowercases` at a concrete input. -/
theorem kind_parse_lowercases_witness :
    DefinitionKind.parse "Widgets" = DefinitionKind.parse (lowerStr "Widgets") ∧
    "widgets" = lowerStr "Widgets" :=
  ⟨kind_parse_lowercases.1 "Widgets",
   kind_parse_lowercases.2.2 "Widgets" "widgets" (by decide)⟩

/-- C5: `parse_relative_path` splits on `/`: one segment gives
`(stem, Other "unknown", none)`; two segments give
`(stem, kind from first segment, none)`; three or more segments give
`(stem, kind from first segment, some second segment)` with segments
beyond the third ignored for the category; the stem is the final segment
with one trailing `.md` or `.json` removed. -/
theorem parse_relative_path_segments :
    (∀ p a, splitPath p = [a] →
      parse_relative_path p = (stemOf a, .other "unknown", none)) ∧
    (∀ p a b, splitPath p = [a, b] →
      parse_relative_path p = (stemOf b, DefinitionKind.parse a, none)) ∧
    (∀ p a b c rest, splitPath p = a :: b :: c :: rest →
      parse_relative_path p
        = (stemOf ((a :: b :: c :: rest).getLastD "unknown"),
           DefinitionKind.parse a, some b)) := by
  refine ⟨fun p a h => ?_, fun p a b h => ?_, fun p a b c rest h => ?_⟩
  · simp [parse_relative_path, h]
  · simp [parse_relative_path, h]
  · rcases rest with _ | ⟨d, rest⟩ <;> simp [parse_relative_path, h]

/-- Witness for `parse_relative_path_segments` at concrete inputs. -/
theorem parse_relative_path_segments_witness :
    parse_relative_path "README.md" = (stemOf "README.md", .other "unknown", none) ∧
    parse_relative_path "hooks/pre-commit-lint.md"
      = (stemOf "pre-commit-lint.md", DefinitionKind.parse "hooks", none) ∧
    parse_relative_path "agents/team/sub/deep/file.md"
      = (stemOf ((["agents", "team", "sub", "deep", "file.md"]).getLastD "unknown"),
         DefinitionKind.parse "agents", some "team") :=
  ⟨parse_relative_path_segments.1 "README.md" "README.md" (by decide),
   parse_relative_path_segments.2.1 "hooks/pre-commit-lint.md" "hooks" "pre-commit-lint.md"
     (by decide),
   parse_relative_path_segments.2.2 "agents/team/sub/deep/file.md" "agents" "team" "sub"
     ["deep", "file.md"] (by decide)⟩

/-- C8: `parse_skill_path` maps the canonical shape
`skills/<category>/<name>/SKILL.md` to `(name, Skill, some category)`;
any path with a different segment count falls back to stripping a
trailing `/SKILL.md` and using the final remaining segment as the name
with no category; the function is total and always returns kind Skill. -/
theorem parse_skill_path_shapes :
    (∀ p c n, splitPath p = ["skills", c, n, "SKILL.md"] →
      parse_skill_path p = (n, .skill, some c)) ∧
    (∀ p, (splitPath p).length ≠ 4 →
      parse_skill_path p = (skillFallbackName p, .skill, none)) ∧
    (∀ p, (parse_skill_path p).2.1 = .skill) := by
  refine ⟨fun p c n h => ?_, fun p h => ?_, fun p => ?_⟩
  · simp [parse_skill_path, h]
  · rcases hp : splitPath p with _ | ⟨a, _ | ⟨b, _ | ⟨c, _ | ⟨d, rest⟩⟩⟩⟩ <;>
      simp_all [parse_skill_path, skillFallbackName]
  · unfold parse_skill_path
    split <;> rfl

/-- Witness for `parse_skill_path_shapes` at concrete inputs. -/
theorem parse_skill_path_shapes_witness :
    parse_skill_path "skills/ai-research/agents-crewai/SKILL.md"
      = ("agents-crewai", .skill, some "ai-research") ∧
    parse_skill_path "skills/deep/nested/extra/SKILL.md"
      = (skillFallbackName "skills/deep/nested/extra/SKILL.md", .skill, none) :=
  ⟨parse_skill_path_shapes.1 "skills/ai-research/agents-crewai/SKILL.md"
     "ai-research" "agents-crewai" (by decide),
   parse_skill_path_shapes.2.1 "skills/deep/nested/extra/SKILL.md" (by decide)⟩

/-! ## Claim theorems: document parser -/

/-- Refutes C2 as stated: the parser recognizes front matter in a document
that does not begin with a `---` line at its very start, because leading
whitespace is trimmed before the start marker is checked. -/
theorem frontmatter_start_marker_counterexample :
    ¬ (∀ (yaml : String → Except String Frontmatter) (content : String)
        (fm : Frontmatter) (body : String),
        parseFrontmatter yaml content = .ok ⟨some fm, body⟩ →
        strStartsWith content "---" = true) := by
  intro h
  have h1 := h (fun _ => .ok {}) "\n---\na: b\n---\nrest" {} "rest" (by rfl)
  have h2 : strStartsWith "\n---\na: b\n---\nrest" "---" = false := by decide
  rw [h1] at h2
  exact Bool.noConfusion h2

/-- C2 (amended): front matter is recognized exactly when, after trimming
leading whitespace, the content starts with `---` and the remaining text
contains `"\n---"`; when not recognized the parse succeeds with the whole
original input as body and no front matter; when recognized, invalid YAML
in the extracted block is a hard error, and valid YAML yields front
matter. -/
theorem frontmatter_recognition (yaml : String → Except String Frontmatter)
    (content : String) :
    (fmRecognized content = false → parseFrontmatter yaml content = .ok ⟨none, content⟩) ∧
    (∀ fm body, parseFrontmatter yaml content = .ok ⟨some fm, body⟩ →
      fmRecognized content = true) ∧
    (fmRecognized content = true → ∀ e, yaml (extractedYaml content) = .error e →
      parseFrontmatter yaml content = .error (.invalidYaml e)) ∧
    (fmRecognized content = true → ∀ fm, yaml (extractedYaml content) = .ok fm →
      parseFrontmatter yaml content = .ok ⟨some fm, extractedBody content⟩) := by
  by_cases hs : strStartsWith (trimLeftStr content) "---" = true
  · rcases hfind : findSub ((trimLeftStr content).data.drop 3) "\n---".data with _ | endPos
    · have hcont := (findSub_none_iff _ _).mp hfind
      refine ⟨fun _ => ?_, fun fm body hp => ?_, fun hr => ?_, fun hr => ?_⟩
      · simp [parseFrontmatter, hs, hfind]
      · simp [parseFrontmatter, hs, hfind] at hp
      · rw [fmRecognized, hs, hcont] at hr
        simp at hr
      · rw [fmRecognized, hs, hcont] at hr
        simp at hr
    · have hrec : fmRecognized content = true := by
        have : containsSub ((trimLeftStr content).data.drop 3) "\n---".data = true := by
          by_contra hc
          rw [Bool.not_eq_true] at hc
          rw [(findSub_none_iff _ _).mpr hc] at hfind
          exact Option.noConfusion hfind
        simp [fmRecognized, hs, this]
      have hex : extractedYaml content
          = String.mk (((trimLeftStr content).data.drop 3).take endPos) := by
        simp [extractedYaml, hfind]
      refine ⟨fun hf => ?_, fun fm body _ => hrec, fun _ e he => ?_, fun _ fm hok => ?_⟩
      · rw [hrec] at hf
        exact Bool.noConfusion hf
      · rw [hex] at he
        simp [parseFrontmatter, hs, hfind, he]
      · rw [hex] at hok
        simp [parseFrontmatter, extractedBody, hs, hfind, hok]
  · have hp : parseFrontmatter yaml content = .ok ⟨none, content⟩ := by
      simp [parseFrontmatter, hs]
    refine ⟨fun _ => hp, fun fm body hpp => ?_, fun hr => ?_, fun hr => ?_⟩
    · rw [hp] at hpp
      simp at hpp
    · rw [fmRecognized] at hr
      simp [hs] at hr
    · rw [fmRecognized] at hr
      simp [hs] at hr

/-- Witness for `frontmatter_recognition` at concrete inputs: a document
with no marker parses wholesale as body; a recognized block with invalid
YAML is a hard error. -/
theorem frontmatter_recognition_witness :
    parseFrontmatter (fun _ => .ok {}) "plain text" = .ok ⟨none, "plain text"⟩ ∧
    parseFrontmatter (fun _ => .error "bad") "---\nname: x\n---\nbody"
      = .error (.invalidYaml "bad") :=
  ⟨(frontmatter_recognition (fun _ => .ok {}) "plain text").1 (by decide),
   (frontmatter_recognition (fun _ => .error "bad") "---\nname: x\n---\nbody").2.2.1
     (by decide) "bad" (by rfl)⟩

/-- C9: every `Definition` successfully built by `build_json_definition`
has its body equal to the verbatim JSON input text, the same as its raw
field. -/
theorem build_json_body_is_raw (json : String → Except String JsonDefinition)
    (id rawContent pathName : String) (kind : DefinitionKind)
    (category : Option String) (sourceLabel : String) (d : Definition)
    (h : build_json_definition json id rawContent pathName kind category sourceLabel
      = .ok d) :
    d.body = rawContent ∧ d.raw = rawContent := by
  unfold build_json_definition at h
  revert h
  cases json rawContent <;> intro h
  · exact Except.noConfusion h
  · injection h with h
    rw [← h]
    exact ⟨rfl, rfl⟩

/-- Witness for `build_json_body_is_raw` at a concrete input. -/
theorem build_json_body_is_raw_witness :
    (⟨"agents/data.json", "data", none, .agent, none, "src", "null", [], none, [],
      "null"⟩ : Definition).body = "null" ∧
    (⟨"agents/data.json", "data", none, .agent, none, "src", "null", [], none, [],
      "null"⟩ : Definition).raw = "null" :=
  build_json_body_is_raw (fun _ => .ok {}) "agents/data.json" "null" "data" .agent none
    "src" _ (by rfl)

theorem syncFileStep_classify (yaml : String → Except String Frontmatter)
    (json : String → Except String JsonDefinition) (label : String)
    (st : StoreState) (rep : SyncReport) (f : RawDefinitionFile) :
    syncFileStep yaml json label (st, rep) f
      = match classifyRawFile yaml json label f with
        | .skippedSilently => (st, ⟨rep.synced, rep.skipped + 1, rep.feedback⟩)
        | .syncedDef d =>
          (upsert_definition st d, ⟨rep.synced + 1, rep.skipped, rep.feedback⟩)
        | .warned m =>
          (st, ⟨rep.synced, rep.skipped + 1, rep.feedback ++ [.warning m]⟩) := by
  by_cases h1 : is_definition_file f.relative_path = true
  · by_cases h2 : is_skill_reference f.relative_path = true
    · simp [syncFileStep, classifyRawFile, h1, h2]
    · by_cases h3 : is_skill_entry_point f.relative_path = true
      · rcases hp : parse_skill_path f.relative_path with ⟨n, k, c⟩
        cases hb : build_definition yaml json (stripSuffixOr f.relative_path "/SKILL.md")
            f.content f.relative_path n k c label with
        | ok d => simp [syncFileStep, classifyRawFile, h1, h2, h3, hp, hb]
        | error e => simp [syncFileStep, classifyRawFile, h1, h2, h3, hp, hb]
      · rcases hp : parse_relative_path f.relative_path with ⟨n, k, c⟩
        cases hb : build_definition yaml json f.relative_path f.content f.relative_path
            n k c label with
        | ok d => simp [syncFileStep, classifyRawFile, h1, h2, h3, hp, hb]
        | error e => simp [syncFileStep, classifyRawFile, h1, h2, h3, hp, hb]
  · simp [syncFileStep, classifyRawFile, h1]

theorem syncFold_characterization (yaml : String → Except String Frontmatter)
    (json : String → Except String JsonDefinition) (label : String)
    (files : List RawDefinitionFile) (st : StoreState) (rep : SyncReport) :
    files.foldl (syncFileStep yaml json label) (st, rep)
      = (applyOutcomes st (files.map (classifyRawFile yaml json label)),
         ⟨rep.synced + countSynced (files.map (classifyRawFile yaml json label)),
          rep.skipped + countSkipped (files.map (classifyRawFile yaml json label)),
          rep.feedback ++ warningsOf (files.map (classifyRawFile yaml json label))⟩) := by
  induction files generalizing st rep with
  | nil => simp [applyOutcomes, countSynced, countSkipped, warningsOf]
  | cons f rest ih =>
    rw [List.map_cons, List.foldl_cons, syncFileStep_classify]
    cases ho : classifyRawFile yaml json label f with
    | skippedSilently =>
      rw [ih]
      simp only [applyOutcomes, List.foldl_cons, countSynced, countSkipped, warningsOf,
                 List.countP_cons, List.filterMap_cons]
      simp [Prod.ext_iff]
      omega
    | syncedDef d =>
      rw [ih]
      simp only [applyOutcomes, List.foldl_cons, countSynced, countSkipped, warningsOf,
                 List.countP_cons, List.filterMap_cons]
      simp [Prod.ext_iff]
      omega
    | warned m =>
      rw [ih]
      simp only [applyOutcomes, List.foldl_cons, countSynced, countSkipped, warningsOf,
                 List.countP_cons, List.filterMap_cons]
      simp [Prod.ext_iff, List.append_assoc]
      omega

theorem sync_ok_eq (yaml : String → Except String Frontmatter)
    (json : String → Except String JsonDefinition) (label : String)
    (st : StoreState) (files : List RawDefinitionFile) (now : String) :
    sync yaml json label st (.ok files) now
      = (record_sync (applyOutcomes (clear_definitions st label)
            (files.map (classifyRawFile yaml json label))) label now,
         .ok ⟨countSynced (files.map (classifyRawFile yaml json label)),
              countSkipped (files.map (classifyRawFile yaml json label)),
              warningsOf (files.map (classifyRawFile yaml json label))⟩) := by
  unfold sync
  dsimp only
  rw [syncFold_characterization]
  simp

theorem build_definition_label (yaml : String → Except String Frontmatter)
    (json : String → Except String JsonDefinition) (id rawContent relativePath : String)
    (pathName : String) (kind : DefinitionKind) (category : Option String)
    (label : String) (d : Definition)
    (h : build_definition yaml json id rawContent relativePath pathName kind category
      label = .ok d) : d.sourceLabel = label := by
  unfold build_definition at h
  by_cases he : strEndsWith relativePath ".json" = true
  · rw [if_pos he] at h
    unfold build_json_definition at h
    revert h
    cases json rawContent <;> intro h
    · exact Except.noConfusion h
    · injection h with h
      rw [← h]
  · rw [if_neg he] at h
    unfold build_markdown_definition at h
    revert h
    cases parseFrontmatter yaml rawContent with
    | error e => intro h; exact Except.noConfusion h
    | ok doc =>
      cases doc.frontmatter <;> (intro h; injection h with h; rw [← h])

theorem classify_synced_label (yaml : String → Except String Frontmatter)
    (json : String → Except String JsonDefinition) (label : String)
    (f : RawDefinitionFile) (d : Definition)
    (h : classifyRawFile yaml json label f = .syncedDef d) : d.sourceLabel = label := by
  by_cases h1 : is_definition_file f.relative_path = true
  · by_cases h2 : is_skill_reference f.relative_path = true
    · simp [classifyRawFile, h1, h2] at h
    · by_cases h3 : is_skill_entry_point f.relative_path = true
      · rcases hp : parse_skill_path f.relative_path with ⟨n, k, c⟩
        cases hb : build_definition yaml json (stripSuffixOr f.relative_path "/SKILL.md")
            f.content f.relative_path n k c label with
        | ok d' =>
          simp [classifyRawFile, h1, h2, h3, hp, hb] at h
          rw [← h]
          exact build_definition_label _ _ _ _ _ _ _ _ _ _ hb
        | error e => simp [classifyRawFile, h1, h2, h3, hp, hb] at h
      · rcases hp : parse_relative_path f.relative_path with ⟨n, k, c⟩
        cases hb : build_definition yaml json f.relative_path f.content f.relative_path
            n k c label with
        | ok d' =>
          simp [classifyRawFile, h1, h2, h3, hp, hb] at h
          rw [← h]
          exact build_definition_label _ _ _ _ _ _ _ _ _ _ hb
        | error e => simp [classifyRawFile, h1, h2, h3, hp, hb] at h
  · simp [classifyRawFile, h1] at h

theorem applyOutcomes_defs_congr (outs : List FileOutcome) (st st' : StoreState)
    (h : st.defs = st'.defs) :
    (applyOutcomes st outs).defs = (applyOutcomes st' outs).defs := by
  induction outs generalizing st st' with
  | nil => exact h
  | cons o rest ih =>
    cases o with
    | syncedDef d => exact ih _ _ (by simp [upsert_definition, h])
    | skippedSilently => exact ih _ _ h
    | warned m => exact ih _ _ h

theorem filter_not_label_upsertList (l : List Definition) (d : Definition)
    (label : String) (hd : d.sourceLabel = label) :
    (l.filter (fun r => ¬ (r.sourceLabel = d.sourceLabel ∧ r.id = d.id)) ++ [d]).filter
        (fun r => ¬ r.sourceLabel = label)
      = l.filter (fun r => ¬ r.sourceLabel = label) := by
  rw [List.filter_append, List.filter_filter]
  have h1 : List.filter (fun r => ¬ r.sourceLabel = label) [d] = [] := by simp [hd]
  rw [h1, List.append_nil]
  apply List.filter_congr
  intro a _
  by_cases hpa : a.sourceLabel = label
  · simp [hpa]
  · simp [hpa, hd]

theorem applyOutcomes_filter_other (label : String) (outs : List FileOutcome)
    (h : ∀ d, FileOutcome.syncedDef d ∈ outs → d.sourceLabel = label) (st : StoreState) :
    (applyOutcomes st outs).defs.filter (fun r => ¬ r.sourceLabel = label)
      = st.defs.filter (fun r => ¬ r.sourceLabel = label) := by
  induction outs generalizing st with
  | nil => rfl
  | cons o rest ih =>
    cases o with
    | syncedDef d =>
      have hd := h d (by simp)
      have hrest := ih (fun d' hm => h d' (by simp [hm])) (upsert_definition st d)
      calc (applyOutcomes st (FileOutcome.syncedDef d :: rest)).defs.filter
              (fun r => ¬ r.sourceLabel = label)
          = (applyOutcomes (upsert_definition st d) rest).defs.filter
              (fun r => ¬ r.sourceLabel = label) := rfl
        _ = (upsert_definition st d).defs.filter (fun r => ¬ r.sourceLabel = label) := hrest
        _ = st.defs.filter (fun r => ¬ r.sourceLabel = label) :=
            filter_not_label_upsertList st.defs d label hd
    | skippedSilently => exact ih (fun d' hm => h d' (by simp [hm])) st
    | warned m => exact ih (fun d' hm => h d' (by simp [hm])) st

theorem filter_not_label_idem (l : List Definition) (label : String) :
    (l.filter (fun r => ¬ r.sourceLabel = label)).filter (fun r => ¬ r.sourceLabel = label)
      = l.filter (fun r => ¬ r.sourceLabel = label) := by
  induction l with
  | nil => rfl
  | cons a l ih => by_cases ha : a.sourceLabel = label <;> simp [ha, ih]

/-! ## Claim theorems: store and composite -/

/-- C3: when the provider's `fetch_all` fails, `sync` returns that error
and the store state is exactly the state before the call: no definition
row is deleted or inserted and the sync timestamp row is unchanged. -/
theorem sync_provider_error_untouched (yaml : String → Except String Frontmatter)
    (json : String → Except String JsonDefinition) (label : String)
    (st : StoreState) (e : SyncError) (now : String) :
    sync yaml json label st (.error e) now = (st, .error e) := rfl

/-- C6: `sync_status` is `NeverSynced` without a timestamp row or with a
null timestamp; with a parseable timestamp it reports
`floor(elapsed / 86400)` days, `Stale` at seven or more days and `Fresh`
below; exactly six days old is `Fresh 6` and exactly seven days old is
`Stale 7`. -/
theorem sync_status_thresholds :
    (∀ st label now, getSourceRow st label = none →
      sync_status st label now = .neverSynced) ∧
    (∀ st label now, getSourceRow st label = some none →
      sync_status st label now = .neverSynced) ∧
    (∀ st label now ts t, getSourceRow st label = some (some ts) →
      parseNat? ts = some t → t ≤ now →
      sync_status st label now =
        if 7 ≤ (now - t) / 86400 then .stale ((now - t) / 86400)
        else .fresh ((now - t) / 86400)) ∧
    (∀ st label ts t, getSourceRow st label = some (some ts) →
      parseNat? ts = some t →
      sync_status st label (t + 6 * 86400) = .fresh 6) ∧
    (∀ st label ts t, getSourceRow st label = some (some ts) →
      parseNat? ts = some t →
      sync_status st label (t + 7 * 86400) = .stale 7) := by
  refine ⟨fun st label now h => ?_, fun st label now h => ?_,
          fun st label now ts t hrow hts hle => ?_,
          fun st label ts t hrow hts => ?_, fun st label ts t hrow hts => ?_⟩
  · simp [sync_status, h]
  · simp [sync_status, h]
  · simp [sync_status, hrow, days_since, hts]
  · have hd : (t + 6 * 86400 - t) / 86400 = 6 := by omega
    simp [sync_status, hrow, days_since, hts, hd]
  · have hd : (t + 7 * 86400 - t) / 86400 = 7 := by omega
    simp [sync_status, hrow, days_since, hts, hd]

/-- Witness for `sync_status_thresholds` at concrete store states. -/
theorem sync_status_thresholds_witness :
    sync_status ⟨[], []⟩ "src" 0 = .neverSynced ∧
    sync_status ⟨[], [("src", none)]⟩ "src" 0 = .neverSynced ∧
    sync_status ⟨[], [("src", some "100")]⟩ "src" 101 =
      (if 7 ≤ (101 - 100) / 86400 then SyncStatus.stale ((101 - 100) / 86400)
       else SyncStatus.fresh ((101 - 100) / 86400)) ∧
    sync_status ⟨[], [("src", some "100")]⟩ "src" (100 + 6 * 86400) = .fresh 6 ∧
    sync_status ⟨[], [("src", some "100")]⟩ "src" (100 + 7 * 86400) = .stale 7 :=
  ⟨sync_status_thresholds.1 ⟨[], []⟩ "src" 0 (by decide),
   sync_status_thresholds.2.1 ⟨[], [("src", none)]⟩ "src" 0 (by decide),
   sync_status_thresholds.2.2.1 ⟨[], [("src", some "100")]⟩ "src" 101 "100" 100
     (by decide) (by decide) (by decide),
   sync_status_thresholds.2.2.2.1 ⟨[], [("src", some "100")]⟩ "src" "100" 100
     (by decide) (by decide),
   sync_status_thresholds.2.2.2.2 ⟨[], [("src", some "100")]⟩ "src" "100" 100
     (by decide) (by decide)⟩

/-- C4: composite fetch tries members in order: the first `Ok` wins after
any run of `NotFound` members; a non-`NotFound` error aborts immediately;
and when every member (possibly none) reports `NotFound`, the composite
reports `NotFound` carrying the queried id. -/
theorem composite_fetch_order :
    (∀ (pre post : List (DefinitionId → Except SourceError Definition)) s id d,
      (∀ t ∈ pre, ∃ j, t id = .error (.notFound j)) → s id = .ok d →
      compositeFetch (pre ++ s :: post) id = .ok d) ∧
    (∀ (pre post : List (DefinitionId → Except SourceError Definition)) s id e,
      (∀ t ∈ pre, ∃ j, t id = .error (.notFound j)) → s id = .error e →
      (∀ j, e ≠ .notFound j) →
      compositeFetch (pre ++ s :: post) id = .error e) ∧
    (∀ (sources : List (DefinitionId → Except SourceError Definition)) id,
      (∀ t ∈ sources, ∃ j, t id = .error (.notFound j)) →
      compositeFetch sources id = .error (.notFound id)) := by
  refine ⟨fun pre post s id d hpre hs => ?_, fun pre post s id e hpre hs hne => ?_,
          fun sources id h => ?_⟩
  · induction pre with
    | nil => simp [compositeFetch, hs]
    | cons t rest ih =>
      obtain ⟨j, hj⟩ := hpre t (by simp)
      simp only [List.cons_append, compositeFetch, hj]
      exact ih (fun u hu => hpre u (by simp [hu]))
  · induction pre with
    | nil =>
      cases e with
      | notFound j => exact absurd rfl (hne j)
      | network m => simp [compositeFetch, hs]
      | parse m => simp [compositeFetch, hs]
      | other m => simp [compositeFetch, hs]
    | cons t rest ih =>
      obtain ⟨j, hj⟩ := hpre t (by simp)
      simp only [List.cons_append, compositeFetch, hj]
      exact ih (fun u hu => hpre u (by simp [hu]))
  · induction sources with
    | nil => rfl
    | cons t rest ih =>
      obtain ⟨j, hj⟩ := h t (by simp)
      simp only [compositeFetch, hj]
      exact ih (fun u hu => h u (by simp [hu]))

/-- Witness for `composite_fetch_order` at concrete member lists. -/
theorem composite_fetch_order_witness :
    compositeFetch
      [fun i => .error (.notFound i),
       fun i => if i = "x"
         then .ok ⟨"x", "x", none, .agent, none, "B", "b", [], none, [], "r"⟩
         else .error (.notFound i)] "x"
      = .ok ⟨"x", "x", none, .agent, none, "B", "b", [], none, [], "r"⟩ ∧
    compositeFetch
      [fun i => .error (.notFound i), fun _ => .error (.network "down")] "x"
      = .error (.network "down") ∧
    compositeFetch
      [fun i => .error (.notFound i), fun i => .error (.notFound i)] "y"
      = .error (.notFound "y") :=
  ⟨composite_fetch_order.1 [fun i => .error (.notFound i)] []
      (fun i => if i = "x"
        then .ok ⟨"x", "x", none, .agent, none, "B", "b", [], none, [], "r"⟩
        else .error (.notFound i)) "x" _
      (by intro t ht; rw [List.mem_singleton] at ht; subst ht; exact ⟨"x", rfl⟩)
      (by rfl),
   composite_fetch_order.2.1 [fun i => .error (.notFound i)] []
      (fun _ => .error (.network "down")) "x" (.network "down")
      (by intro t ht; rw [List.mem_singleton] at ht; subst ht; exact ⟨"x", rfl⟩)
      rfl (by intro j h; exact SourceError.noConfusion h),
   composite_fetch_order.2.2
      [fun i => .error (.notFound i), fun i => .error (.notFound i)] "y"
      (by intro t ht
          rcases List.mem_cons.mp ht with h | h
          · subst h; exact ⟨"y", rfl⟩
          · rw [List.mem_singleton] at h; subst h; exact ⟨"y", rfl⟩)⟩

/-- C1: on a successful provider fetch, `sync` processes each raw file per
the spec's per-file outcomes — silent skip for unrecognized or
skill-reference files, classify (entry point → directory id + skill
parse, else raw-path id + flat parse) then build and upsert on success,
or skip with one warning naming the path and parse error — accumulating
the synced count, skipped count and warnings over all files without
aborting. -/
theorem sync_processes_each_file (yaml : String → Except String Frontmatter)
    (json : String → Except String JsonDefinition) (label : String)
    (st : StoreState) (files : List RawDefinitionFile) (now : String) :
    sync yaml json label st (.ok files) now
      = (record_sync (applyOutcomes (clear_definitions st label)
            (files.map (classifyRawFile yaml json label))) label now,
         .ok ⟨countSynced (files.map (classifyRawFile yaml json label)),
              countSkipped (files.map (classifyRawFile yaml json label)),
              warningsOf (files.map (classifyRawFile yaml json label))⟩) :=
  sync_ok_eq yaml json label st files now

/-- C7: running `sync` twice in succession against a provider that yields
the same file list both times produces equal reports (hence equal synced
and skipped counts) and identical `list`, `search`, and `fetch` results
after each run. -/
theorem sync_idempotent (yaml : String → Except String Frontmatter)
    (json : String → Except String JsonDefinition) (label : String)
    (st : StoreState) (files : List RawDefinitionFile) (now1 now2 : String) :
    ((sync yaml json label st (.ok files) now1).2
        = (sync yaml json label (sync yaml json label st (.ok files) now1).1
            (.ok files) now2).2)
    ∧ (list_q (sync yaml json label st (.ok files) now1).1 label
        = list_q (sync yaml json label (sync yaml json label st (.ok files) now1).1
            (.ok files) now2).1 label)
    ∧ (∀ q, search_q (sync yaml json label st (.ok files) now1).1 label q
        = search_q (sync yaml json label (sync yaml json label st (.ok files) now1).1
            (.ok files) now2).1 label q)
    ∧ (∀ id, fetch_q (sync yaml json label st (.ok files) now1).1 label id
        = fetch_q (sync yaml json label (sync yaml json label st (.ok files) now1).1
            (.ok files) now2).1 label id) := by
  have h1 := sync_ok_eq yaml json label st files now1
  set s1 := (sync yaml json label st (.ok files) now1).1 with hs1
  have h2 := sync_ok_eq yaml json label s1 files now2
  set s2 := (sync yaml json label s1 (.ok files) now2).1 with hs2
  have hs1e : s1 = record_sync (applyOutcomes (clear_definitions st label)
      (files.map (classifyRawFile yaml json label))) label now1 := by
    rw [hs1, h1]
  have hs2e : s2 = record_sync (applyOutcomes (clear_definitions s1 label)
      (files.map (classifyRawFile yaml json label))) label now2 := by
    rw [hs2, h2]
  have hlab : ∀ d, FileOutcome.syncedDef d ∈ files.map (classifyRawFile yaml json label) →
      d.sourceLabel = label := by
    intro d hm
    obtain ⟨f, _, hc⟩ := List.mem_map.mp hm
    exact classify_synced_label yaml json label f d hc
  have hclear : (clear_definitions s1 label).defs = (clear_definitions st label).defs := by
    show s1.defs.filter (fun r => ¬ r.sourceLabel = label) = _
    rw [hs1e]
    show (applyOutcomes (clear_definitions st label)
        (files.map (classifyRawFile yaml json label))).defs.filter
          (fun r => ¬ r.sourceLabel = label) = _
    rw [applyOutcomes_filter_other label _ hlab]
    show (st.defs.filter (fun r => ¬ r.sourceLabel = label)).filter
        (fun r => ¬ r.sourceLabel = label) = _
    exact filter_not_label_idem st.defs label
  have hdefs : s2.defs = s1.defs := by
    have e2 : s2.defs = (applyOutcomes (clear_definitions s1 label)
        (files.map (classifyRawFile yaml json label))).defs := by
      rw [hs2e]; rfl
    have e1 : s1.defs = (applyOutcomes (clear_definitions st label)
        (files.map (classifyRawFile yaml json label))).defs := by
      rw [hs1e]; rfl
    rw [e2, e1]
    exact applyOutcomes_defs_congr _ _ _ hclear
  refine ⟨?_, ?_, fun q => ?_, fun id => ?_⟩
  · rw [h1, h2]
  · simp only [list_q]
    rw [hdefs]
  · simp only [search_q]
    rw [hdefs]
  · simp only [fetch_q]
    rw [hdefs]

end AgentDefs
